import Mathlib

/-!
# A verification of `django-next-previous` (`next_previous/__init__.py`)

Shallow embedding of the `NextPreviousMixin` model mixin.  The mixin builds,
for a reference record and a declared multi-field ordering, the boolean `Q`
predicate selecting all records strictly after (or strictly before) the
reference under that ordering, and evaluates it through the host ORM.

Modelling choices:
* a record is a finite assignment of integer values to field names (an
  association list); an absent binding models a Python attribute whose value
  is `None`;
* `Q` objects are modelled syntactically (empty / lookup / `&` / `|`), with
  Django's combination semantics where the empty `Q()` is the identity of
  both `&` and `|`, and evaluation semantics where a comparison or equality
  lookup against a record lacking the field is false (SQL `NULL` behaviour);
* the query set `._default_manager.all()` is the stored record list sorted
  by `Meta.ordering` with a stable sort — the database is free to return
  rows tied on every ordering field in any order, and storage order is one
  faithful instantiation of that freedom;
* the opaque `**kwargs` filter and the `next_previous_filter` hook are
  modelled as boolean row predicates.
-/

/-- Fld names, as Python attribute-name strings. -/
abbrev Fld := String

/-- A record: a finite assignment of integer values to field names.
`getattr` returns the first binding; a missing binding models `None`. -/
abbrev Rec := List (Fld × Int)

/-- `getattr(self, field, None)`. -/
def getattr (r : Rec) (f : Fld) : Option Int :=
  (r.find? fun p => p.1 == f).map (·.2)

/-- The two strict comparison lookups the mixin emits (`__lt` / `__gt`). -/
inductive Op
  | lt
  | gt
deriving DecidableEq

/-- Evaluation of a strict comparison lookup on concrete values:
`x __lt v` and `x __gt v`. -/
def evalOp (op : Op) (x v : Int) : Bool :=
  match op with
  | .lt => decide (x < v)
  | .gt => decide (v < x)

/-- `field.startswith('-')` handling in `_get_next_or_previous`: strip the
descending marker (`field[1:]`), returning the bare name and whether the
field is descending.  Stated on the character list underlying the string
so that it evaluates by kernel reduction. -/
def stripDir (field : String) : Fld × Bool :=
  match field.data with
  | '-' :: rest => (String.mk rest, true)
  | _ => (field, false)

/-- Operator choice from the source: on a descending field
`op = next and 'lt' or 'gt'`, on an ascending field
`op = next and 'gt' or 'lt'`. -/
def opFor (nxt : Bool) (desc : Bool) : Op :=
  if desc then (if nxt then .lt else .gt) else (if nxt then .gt else .lt)

/-- The `fields` / `operator` lists built by `_get_next_or_previous`: walk
`list(self._meta.ordering) + ['pk']`, strip a leading `'-'`, pick the
comparison operator, and `continue` past any field whose value on the
reference record is `None`.  Each kept entry also records the reference
value: the source re-reads it later with `getattr(self, field)`, and the
record is immutable here, so capturing it at the skip test is the same. -/
def effectiveFields (ordering : List String) (self : Rec) (nxt : Bool) :
    List (Fld × Op × Int) :=
  (ordering ++ ["pk"]).filterMap fun field =>
    match getattr self (stripDir field).1 with
    | none => none
    | some v => some ((stripDir field).1, opFor nxt (stripDir field).2, v)

/-- Syntax of the `Q` objects the mixin constructs: the empty `Q()`, a
strict comparison lookup `field__lt/gt = v`, an equality lookup
`field = v`, and `&` / `|` combinations. -/
inductive QTree
  | empty
  | cmp (f : Fld) (op : Op) (v : Int)
  | eqv (f : Fld) (v : Int)
  | qand (a b : QTree)
  | qor (a b : QTree)
deriving DecidableEq

/-- Django `Q.__and__`: the empty `Q()` is the identity. -/
def qAnd : QTree → QTree → QTree
  | .empty, b => b
  | a, .empty => a
  | a, b => .qand a b

/-- Django `Q.__or__`: the empty `Q()` is the identity. -/
def qOr : QTree → QTree → QTree
  | .empty, b => b
  | a, .empty => a
  | a, b => .qor a b

/-- Evaluation of a `Q` object against a candidate row.  `filter(Q())`
keeps every row; a comparison or equality lookup on a field the candidate
lacks (SQL `NULL`) is false. -/
def evalQ (c : Rec) : QTree → Bool
  | .empty => true
  | .cmp f op v =>
    match getattr c f with
    | none => false
    | some x => evalOp op x v
  | .eqv f v =>
    match getattr c f with
    | none => false
    | some x => x == v
  | .qand a b => evalQ c a && evalQ c b
  | .qor a b => evalQ c a || evalQ c b

/-- Whether a `Q` object contains a lookup naming field `f`. -/
def mentions (f : Fld) : QTree → Bool
  | .empty => false
  | .cmp g _ _ => g == f
  | .eqv g _ => g == f
  | .qand a b => mentions f a || mentions f b
  | .qor a b => mentions f a || mentions f b

/-- The `Q`-construction loop of `_get_next_or_previous`: starting from
`q = Q()`, for each index `idx` build
`inner = Q(fields[idx]__op = value)` conjoined (`&=`) with equality
lookups on `reversed(fields[:idx])`, then `q |= inner`. -/
def buildQ (fs : List (Fld × Op × Int)) : QTree :=
  fs.enum.foldl
    (fun q p =>
      qOr q
        (((fs.take p.1).reverse).foldl
          (fun acc e => qAnd acc (.eqv e.1 e.2.2))
          (.cmp p.2.1 p.2.2.1 p.2.2.2)))
    .empty

/-- Comparison of two optional field values, modelling the database sort
order behind `ORDER BY` (`NULL` sorts first, as in e.g. SQLite). -/
def cmpVal (x y : Option Int) : Ordering :=
  match x, y with
  | none, none => .eq
  | none, some _ => .lt
  | some _, none => .gt
  | some a, some b => if a < b then .lt else if b < a then .gt else .eq

/-- Lexicographic comparison of two records over a parsed field list
(name, descending?), modelling the `ORDER BY` clause induced by
`Meta.ordering`.  The tiebreaker `pk` is NOT part of this list: the
source appends `'pk'` only to the predicate, never to the ordering. -/
def cmpFields (a b : Rec) : List (Fld × Bool) → Ordering
  | [] => .eq
  | fd :: rest =>
    match (if fd.2 then (cmpVal (getattr a fd.1) (getattr b fd.1)).swap
           else cmpVal (getattr a fd.1) (getattr b fd.1)) with
    | .eq => cmpFields a b rest
    | .lt => .lt
    | .gt => .gt

/-- `Meta.ordering`-induced comparison of two records. -/
def cmpRecs (ordering : List String) (a b : Rec) : Ordering :=
  cmpFields a b (ordering.map stripDir)

/-- The sort order used by the model's query sets. -/
def recLE (ordering : List String) (a b : Rec) : Prop :=
  (cmpRecs ordering a b).isLE = true

instance (ordering : List String) : DecidableRel (recLE ordering) :=
  fun a b => instDecidableEqBool (cmpRecs ordering a b).isLE true

/-- The environment of one lookup: the model class's `Meta.ordering`, the
database contents (in storage order), and the `next_previous_filter` hook
modelled as a row predicate (the default hook keeps everything). -/
structure Model where
  ordering : List String
  db : List Rec
  next_previous_filter : Rec → Bool

/-- `self.__class__._default_manager.all()`: every stored record, in the
order induced by `Meta.ordering`.  A stable sort: the database may return
rows tied on all ordering fields in any order, and storage order is one
faithful instantiation of that freedom. -/
def allRecords (m : Model) : List Rec :=
  m.db.insertionSort (recLE m.ordering)

/-- `_get_next_or_previous(self, next, num, **kwargs)`: build the `Q`
predicate, scope through `next_previous_filter`, apply the opaque
`**kwargs` filter (`extra`) and the predicate, reverse for a backward
search, and slice to `num`. -/
def get_next_or_previous (m : Model) (self : Rec) (nxt : Bool) (num : Nat)
    (extra : Rec → Bool) : List Rec :=
  let q := buildQ (effectiveFields m.ordering self nxt)
  let qs := (((allRecords m).filter m.next_previous_filter).filter extra).filter
    fun c => evalQ c q
  (if nxt then qs else qs.reverse).take num

/-- The per-instance cache attributes `_next_items_cache` and
`_previous_items_cache`; an attribute that was never set is `none`. -/
structure Cache where
  next_items_cache : Option (Nat × List Rec)
  previous_items_cache : Option (Nat × List Rec)
deriving DecidableEq

/-- The state of an instance on which neither cache attribute is set. -/
def Cache.empty : Cache := ⟨none, none⟩

/-- `getattr(self, cache_name, None)` for the direction's cache slot. -/
def getCacheEntry (st : Cache) (nxt : Bool) : Option (Nat × List Rec) :=
  if nxt then st.next_items_cache else st.previous_items_cache

/-- `setattr(self, cache_name, (num, out))`. -/
def setCacheEntry (st : Cache) (nxt : Bool) (e : Nat × List Rec) : Cache :=
  if nxt then { st with next_items_cache := some e }
  else { st with previous_items_cache := some e }

/-- `_cached_get_next_or_previous`: serve `cached_results[:num]` when the
direction's entry exists and `num <= cached_num`; otherwise recompute and
overwrite the entry with `(num, out)`.  Returns the result together with
the instance state after the call.  (A stored Python pair is always
truthy, so `if cached:` is exactly the `some` case.) -/
def cached_get_next_or_previous (m : Model) (self : Rec) (st : Cache)
    (nxt : Bool) (num : Nat) (extra : Rec → Bool) : List Rec × Cache :=
  match getCacheEntry st nxt with
  | some e =>
    if num ≤ e.1 then (e.2.take num, st)
    else
      (get_next_or_previous m self nxt num extra,
        setCacheEntry st nxt (num, get_next_or_previous m self nxt num extra))
  | none =>
    (get_next_or_previous m self nxt num extra,
      setCacheEntry st nxt (num, get_next_or_previous m self nxt num extra))

/-- Return value of the public API: a single record or `None` when
`num == 1`, the (sliced) query set itself otherwise. -/
inductive NPResult
  | single : Option Rec → NPResult
  | many : List Rec → NPResult
deriving DecidableEq

/-- `_get_next_or_previous_single`: `val[0]`, or `None` on `IndexError`,
when `num == 1`; `val` itself otherwise. -/
def get_next_or_previous_single (m : Model) (self : Rec) (st : Cache)
    (nxt : Bool) (num : Nat) (extra : Rec → Bool) : NPResult × Cache :=
  let vc := cached_get_next_or_previous m self st nxt num extra
  if num = 1 then (.single vc.1.head?, vc.2) else (.many vc.1, vc.2)

/-- `next(self, **kwargs)` (named `nextOf` because `next` is reserved). -/
def nextOf (m : Model) (self : Rec) (st : Cache) (num : Nat)
    (extra : Rec → Bool) : NPResult × Cache :=
  get_next_or_previous_single m self st true num extra

/-- `previous(self, **kwargs)`. -/
def previousOf (m : Model) (self : Rec) (st : Cache) (num : Nat)
    (extra : Rec → Bool) : NPResult × Cache :=
  get_next_or_previous_single m self st false num extra

/-- `ipad(iterable, value, length)`: `islice(chain(iterable,
repeat(value)), length)`.  Since at most `length` items are consumed,
`length` copies of the padding value suffice. -/
def ipad (l : List α) (v : α) (n : Nat) : List α :=
  (l ++ List.replicate n v).take n

/-- `around(self, num, **kwargs)`: the previous records padded to `num`
with `None` and reversed, then `self`, then the next records.  The two
underlying calls go through the per-instance cache, in source order
(backward first), so the instance state is threaded through both. -/
def around (m : Model) (self : Rec) (st : Cache) (num : Nat)
    (extra : Rec → Bool) : List (Option Rec) × Cache :=
  let pv := cached_get_next_or_previous m self st false num extra
  let nx := cached_get_next_or_previous m self pv.2 true num extra
  ((ipad (pv.1.map some) none num).reverse ++ some self :: nx.1.map some, nx.2)

/-! ## Spec-side definitions

These follow the specification's words (for refinement comparison with the
definitions above, which follow the source). -/

/-- Spec side, the operator table: "if searching forward ('next'), use
'greater than' for ascending fields and 'less than' for descending
fields; if searching backward ('previous'), invert each." -/
def specOp (forward : Bool) (desc : Bool) : Op :=
  if forward then (if desc then .lt else .gt) else (if desc then .gt else .lt)

/-- The declared ordering with the tiebreaker appended, parsed into
(name, descending?) pairs. -/
def parsedFields (ordering : List String) : List (Fld × Bool) :=
  (ordering ++ ["pk"]).map stripDir

/-- Spec side, the per-position data of the lexicographic comparison for
one candidate: direction, reference value and candidate value at each
position of the effective field list (the parsed fields whose reference
value is present). -/
def specPairs (ordering : List String) (self c : Rec) :
    List (Bool × Int × Option Int) :=
  (parsedFields ordering).filterMap fun fd =>
    (getattr self fd.1).map fun v => (fd.2, v, getattr c fd.1)

/-- Spec side, "the candidate's tuple of effective-field values is
strictly greater (forward) or strictly less (backward) than the
reference's tuple under lexicographic order with those per-field
directions": scan for the first position where the candidate differs from
the reference and decide by that position's direction-dependent strict
comparison.  A candidate lacking a value at the deciding position is not
strictly after/before the reference (SQL `NULL` semantics; vacuous when
every candidate value is present). -/
def specLexStrict (forward : Bool) : List (Bool × Int × Option Int) → Bool
  | [] => false
  | t :: rest =>
    if t.2.2 = some t.2.1 then specLexStrict forward rest
    else
      match t.2.2 with
      | some x => evalOp (specOp forward t.1) x t.2.1
      | none => false

/-- Spec side, "the candidate's effective-field tuple equals r's
effective-field tuple". -/
def tupleEq (ordering : List String) (self c : Rec) : Bool :=
  (specPairs ordering self c).all fun t => t.2.2 == some t.2.1

/-! ## Structure of the built predicate -/

/-- Clause `idx` of the disjunction: the strict lookup on field `idx`
conjoined with equality lookups on every earlier field. -/
def seekClause (fs : List (Fld × Op × Int)) (c : Rec)
    (p : Nat × Fld × Op × Int) : Bool :=
  evalQ c (.cmp p.2.1 p.2.2.1 p.2.2.2) &&
    (fs.take p.1).all fun e => evalQ c (.eqv e.1 e.2.2)

/-- The flat "seek past a composite key" disjunction over all positions. -/
def seekDisj (fs : List (Fld × Op × Int)) (c : Rec) : Bool :=
  fs.enum.any (seekClause fs c)

theorem qAnd_ne_empty {a : QTree} (b : QTree) (ha : a ≠ .empty) :
    qAnd a b ≠ QTree.empty := by
  cases a <;> cases b <;> simp_all [qAnd]

theorem qOr_ne_empty {a : QTree} (b : QTree) (ha : a ≠ .empty) :
    qOr a b ≠ QTree.empty := by
  cases a <;> cases b <;> simp_all [qOr]

theorem evalQ_qAnd (c : Rec) {a b : QTree} (ha : a ≠ .empty)
    (hb : b ≠ .empty) : evalQ c (qAnd a b) = (evalQ c a && evalQ c b) := by
  cases a <;> cases b <;> simp_all [qAnd, evalQ]

theorem evalQ_qOr (c : Rec) {a b : QTree} (ha : a ≠ .empty)
    (hb : b ≠ .empty) : evalQ c (qOr a b) = (evalQ c a || evalQ c b) := by
  cases a <;> cases b <;> simp_all [qOr, evalQ]

theorem foldl_qAnd_eval (c : Rec) (l : List QTree) (init : QTree)
    (hinit : init ≠ .empty) (hl : ∀ t ∈ l, t ≠ QTree.empty) :
    l.foldl qAnd init ≠ QTree.empty ∧
      evalQ c (l.foldl qAnd init) = (evalQ c init && l.all (evalQ c)) := by
  induction l generalizing init with
  | nil => simpa using hinit
  | cons t ts ih =>
    have ht : t ≠ QTree.empty := hl t (List.mem_cons_self t ts)
    have h1 : qAnd init t ≠ QTree.empty := qAnd_ne_empty t hinit
    obtain ⟨hne, heval⟩ := ih (qAnd init t) h1
      (fun x hx => hl x (List.mem_cons_of_mem t hx))
    refine ⟨hne, ?_⟩
    rw [List.foldl_cons, heval, evalQ_qAnd c hinit ht]
    simp [Bool.and_assoc]

theorem foldl_qOr_eval (c : Rec) (l : List QTree) (init : QTree)
    (hinit : init ≠ .empty) (hl : ∀ t ∈ l, t ≠ QTree.empty) :
    l.foldl qOr init ≠ QTree.empty ∧
      evalQ c (l.foldl qOr init) = (evalQ c init || l.any (evalQ c)) := by
  induction l generalizing init with
  | nil => simpa using hinit
  | cons t ts ih =>
    have ht : t ≠ QTree.empty := hl t (List.mem_cons_self t ts)
    have h1 : qOr init t ≠ QTree.empty := qOr_ne_empty t hinit
    obtain ⟨hne, heval⟩ := ih (qOr init t) h1
      (fun x hx => hl x (List.mem_cons_of_mem t hx))
    refine ⟨hne, ?_⟩
    rw [List.foldl_cons, heval, evalQ_qOr c hinit ht]
    simp [Bool.or_assoc]

/-- The inner conjunction built for position `p`. -/
def innerTree (fs : List (Fld × Op × Int)) (p : Nat × Fld × Op × Int) :
    QTree :=
  ((fs.take p.1).reverse).foldl (fun acc e => qAnd acc (.eqv e.1 e.2.2))
    (.cmp p.2.1 p.2.2.1 p.2.2.2)

theorem buildQ_eq_foldl (fs : List (Fld × Op × Int)) :
    buildQ fs = (fs.enum.map (innerTree fs)).foldl qOr .empty := by
  rw [buildQ, List.foldl_map]
  rfl

theorem any_map' (f : α → β) (l : List α) (p : β → Bool) :
    (l.map f).any p = l.any (p ∘ f) := by
  induction l with
  | nil => rfl
  | cons x xs ih => rw [List.map_cons, List.any_cons, List.any_cons, ih]; rfl

theorem all_map' (f : α → β) (l : List α) (p : β → Bool) :
    (l.map f).all p = l.all (p ∘ f) := by
  induction l with
  | nil => rfl
  | cons x xs ih => rw [List.map_cons, List.all_cons, List.all_cons, ih]; rfl

theorem eqv_map_ne_empty (l : List (Fld × Op × Int)) :
    ∀ t ∈ l.map fun e => QTree.eqv e.1 e.2.2, t ≠ QTree.empty := by
  intro t ht
  rw [List.mem_map] at ht
  obtain ⟨e, -, he⟩ := ht
  rw [← he]
  intro hc
  cases hc

theorem innerTree_ne_empty (fs : List (Fld × Op × Int))
    (p : Nat × Fld × Op × Int) : innerTree fs p ≠ QTree.empty := by
  have h := foldl_qAnd_eval [] (((fs.take p.1).reverse).map
      fun e => QTree.eqv e.1 e.2.2) (.cmp p.2.1 p.2.2.1 p.2.2.2)
    (by simp) (eqv_map_ne_empty _)
  rw [List.foldl_map] at h
  exact h.1

theorem evalQ_innerTree (c : Rec) (fs : List (Fld × Op × Int))
    (p : Nat × Fld × Op × Int) :
    evalQ c (innerTree fs p) = seekClause fs c p := by
  have h := foldl_qAnd_eval c (((fs.take p.1).reverse).map
      fun e => QTree.eqv e.1 e.2.2) (.cmp p.2.1 p.2.2.1 p.2.2.2)
    (by simp) (eqv_map_ne_empty _)
  rw [List.foldl_map] at h
  rw [innerTree, h.2, seekClause, all_map', List.all_reverse]
  rfl

/-- Central structural fact: the `Q` object built by the source evaluates
as the flat seek disjunction — except that on an empty effective field
list it is `Q()`, which keeps every row. -/
theorem evalQ_buildQ (c : Rec) (fs : List (Fld × Op × Int)) :
    evalQ c (buildQ fs) = (fs.isEmpty || seekDisj fs c) := by
  rw [buildQ_eq_foldl]
  cases hfs : fs.enum with
  | nil =>
    have : fs = [] := by
      cases fs with
      | nil => rfl
      | cons x xs => rw [List.enum_cons] at hfs; cases hfs
    subst this
    simp [evalQ, seekDisj]
  | cons t ts =>
    have hne : fs.isEmpty = false := by
      cases fs with
      | nil => rw [List.enum_nil] at hfs; cases hfs
      | cons x xs => rfl
    rw [List.map_cons, List.foldl_cons]
    have h0 : qOr .empty (innerTree fs t) = innerTree fs t := by
      cases h : innerTree fs t <;> rfl
    rw [h0]
    obtain ⟨-, heval⟩ := foldl_qOr_eval c (ts.map (innerTree fs))
      (innerTree fs t) (innerTree_ne_empty fs t)
      (by intro x hx
          rw [List.mem_map] at hx
          obtain ⟨p, -, hp⟩ := hx
          rw [← hp]
          exact innerTree_ne_empty fs p)
    have hfun : (evalQ c ∘ innerTree fs) = seekClause fs c := by
      funext p
      exact evalQ_innerTree c fs p
    rw [heval, any_map', hfun, evalQ_innerTree, hne, Bool.false_or,
      seekDisj, hfs, List.any_cons]

/-! ## The built predicate implements lexicographic comparison -/

theorem any_and_left (l : List α) (b : Bool) (f : α → Bool) :
    (l.any fun a => b && f a) = (b && l.any f) := by
  cases b <;> simp

/-- The comparison lookups are strict. -/
theorem evalOp_self (op : Op) (v : Int) : evalOp op v v = false := by
  cases op <;> simp [evalOp]

/-- The source's operator table agrees with the specification's. -/
theorem opFor_eq_specOp (nxt desc : Bool) : opFor nxt desc = specOp nxt desc := by
  cases nxt <;> cases desc <;> rfl

/-- Recursion equation for the flat seek disjunction: clause 0 is the bare
strict lookup, and every later clause factors through equality on field 0. -/
theorem seekDisj_cons (c : Rec) (x : Fld × Op × Int)
    (rest : List (Fld × Op × Int)) :
    seekDisj (x :: rest) c =
      (evalQ c (.cmp x.1 x.2.1 x.2.2) ||
        (evalQ c (.eqv x.1 x.2.2) && seekDisj rest c)) := by
  rw [seekDisj, List.enum_cons', List.any_cons, any_map']
  have h0 : seekClause (x :: rest) c (0, x) = evalQ c (.cmp x.1 x.2.1 x.2.2) := by
    rw [seekClause]
    simp
  have hfe : (seekClause (x :: rest) c ∘ Prod.map (· + 1) id) =
      fun p => evalQ c (.eqv x.1 x.2.2) && seekClause rest c p := by
    funext p
    show seekClause (x :: rest) c (p.1 + 1, p.2) = _
    rw [seekClause, seekClause, List.take_succ_cons, List.all_cons]
    cases evalQ c (QTree.cmp p.2.1 p.2.2.1 p.2.2.2) <;>
      cases evalQ c (QTree.eqv x.1 x.2.2) <;> simp
  rw [h0, hfe, any_and_left, seekDisj]

/-- The effective field list, written as a filter-map over the parsed
(name, descending?) pairs. -/
theorem effectiveFields_eq (ordering : List String) (self : Rec) (nxt : Bool) :
    effectiveFields ordering self nxt = (parsedFields ordering).filterMap
      fun fd => (getattr self fd.1).map fun v => (fd.1, opFor nxt fd.2, v) := by
  rw [effectiveFields, parsedFields, List.filterMap_map]
  congr 1
  funext field
  simp only [Function.comp_apply]
  cases h : getattr self (stripDir field).1 <;> simp [h]

/-- Core equivalence, by induction over the parsed field list: the flat
seek disjunction built from the kept fields decides exactly the strict
lexicographic comparison of the candidate's tuple against the
reference's. -/
theorem seekDisj_eq_specLex (self c : Rec) (nxt : Bool)
    (fds : List (Fld × Bool)) :
    seekDisj (fds.filterMap fun fd => (getattr self fd.1).map
        fun v => (fd.1, opFor nxt fd.2, v)) c =
      specLexStrict nxt (fds.filterMap fun fd => (getattr self fd.1).map
        fun v => (fd.2, v, getattr c fd.1)) := by
  induction fds with
  | nil => rfl
  | cons fd fds ih =>
    rw [List.filterMap_cons, List.filterMap_cons]
    cases hv : getattr self fd.1 with
    | none => simpa using ih
    | some v =>
      rw [Option.map_some', Option.map_some', seekDisj_cons, specLexStrict]
      cases hx : getattr c fd.1 with
      | none =>
        have h1 : evalQ c (QTree.cmp fd.1 (opFor nxt fd.2) v) = false := by
          simp [evalQ, hx]
        have h2 : evalQ c (QTree.eqv fd.1 v) = false := by
          simp [evalQ, hx]
        simp [h1, h2]
      | some x =>
        by_cases hxv : x = v
        · subst hxv
          have h1 : evalQ c (QTree.cmp fd.1 (opFor nxt fd.2) x) = false := by
            simp [evalQ, hx, evalOp_self]
          have h2 : evalQ c (QTree.eqv fd.1 x) = true := by
            simp [evalQ, hx]
          simp [h1, h2, ih]
        · have h1 : evalQ c (QTree.cmp fd.1 (opFor nxt fd.2) v) =
              evalOp (specOp nxt fd.2) x v := by
            simp [evalQ, hx, opFor_eq_specOp]
          have h2 : evalQ c (QTree.eqv fd.1 v) = false := by
            simp [evalQ, hx, hxv]
          have h3 : (some x = some v) = False := by
            simp [hxv]
          simp [h1, h2, h3]

/-- A nonempty list is not `isEmpty`. -/
theorem isEmpty_false_of_ne_nil {l : List α} (h : l ≠ []) :
    l.isEmpty = false := by
  cases l with
  | nil => exact absurd rfl h
  | cons x xs => rfl

/-- The built `Q` predicate decides the spec's strict lexicographic
comparison, whenever the effective field list is nonempty.  (When it is
empty the built object is `Q()`, which keeps every row — see the
empty-predicate theorems below.) -/
theorem evalQ_buildQ_eq_specLex (ordering : List String) (self c : Rec)
    (nxt : Bool) (hne : effectiveFields ordering self nxt ≠ []) :
    evalQ c (buildQ (effectiveFields ordering self nxt)) =
      specLexStrict nxt (specPairs ordering self c) := by
  rw [evalQ_buildQ, isEmpty_false_of_ne_nil hne, Bool.false_or,
    effectiveFields_eq, specPairs, seekDisj_eq_specLex]

/-- The effective field list is empty exactly when every parsed field's
reference value is absent; in particular this does not depend on the
search direction. -/
theorem effectiveFields_eq_nil_iff (ordering : List String) (self : Rec)
    (nxt : Bool) :
    effectiveFields ordering self nxt = [] ↔
      ∀ fd ∈ parsedFields ordering, getattr self fd.1 = none := by
  rw [effectiveFields_eq, List.filterMap_eq_nil_iff]
  constructor
  · intro h fd hfd
    have := h fd hfd
    cases hv : getattr self fd.1 with
    | none => rfl
    | some v => rw [hv, Option.map_some'] at this; cases this
  · intro h fd hfd
    rw [h fd hfd]
    rfl

/-- For a single position whose candidate and reference values differ,
exactly one of the forward and backward comparisons holds. -/
theorem evalOp_specOp_exclusive (d : Bool) (x v : Int) (hxv : x ≠ v) :
    (evalOp (specOp true d) x v = true ∧ evalOp (specOp false d) x v = false) ∨
    (evalOp (specOp false d) x v = true ∧ evalOp (specOp true d) x v = false) := by
  cases d <;> simp [specOp, evalOp] <;> omega

/-- No candidate tuple is both strictly after and strictly before the
reference tuple. -/
theorem specLex_not_both (pairs : List (Bool × Int × Option Int)) :
    ¬(specLexStrict true pairs = true ∧ specLexStrict false pairs = true) := by
  induction pairs with
  | nil => simp [specLexStrict]
  | cons t rest ih =>
    obtain ⟨d, v, cv⟩ := t
    by_cases h : cv = some v
    · simpa [specLexStrict, h] using ih
    · cases hx : cv with
      | none => simp [specLexStrict, h]
      | some x =>
        subst hx
        have hxv : x ≠ v := fun e => h (by rw [e])
        rcases evalOp_specOp_exclusive d x v hxv with ⟨h1, h2⟩ | ⟨h1, h2⟩ <;>
          simp [specLexStrict, h, h1, h2]

/-- When every candidate value is present, the candidate tuple is strictly
after the reference tuple, strictly before it, or equal to it — exactly
one of the three. -/
theorem specLex_trichotomy (pairs : List (Bool × Int × Option Int))
    (h : ∀ t ∈ pairs, t.2.2.isSome = true) :
    (specLexStrict true pairs = true ∧ specLexStrict false pairs = false ∧
        (pairs.all fun t => t.2.2 == some t.2.1) = false) ∨
    (specLexStrict false pairs = true ∧ specLexStrict true pairs = false ∧
        (pairs.all fun t => t.2.2 == some t.2.1) = false) ∨
    ((pairs.all fun t => t.2.2 == some t.2.1) = true ∧
        specLexStrict true pairs = false ∧ specLexStrict false pairs = false) := by
  induction pairs with
  | nil =>
    right; right
    simp [specLexStrict]
  | cons t rest ih =>
    obtain ⟨d, v, cv⟩ := t
    obtain ⟨x, hx⟩ : ∃ x, cv = some x := by
      have := h (d, v, cv) (List.mem_cons_self _ _)
      cases cv with
      | none => simp at this
      | some x => exact ⟨x, rfl⟩
    subst hx
    by_cases hxv : x = v
    · subst hxv
      have hh : ∀ t ∈ rest, t.2.2.isSome = true :=
        fun t ht => h t (List.mem_cons_of_mem _ ht)
      rcases ih hh with h1 | h1 | h1
      · left
        simpa [specLexStrict, List.all_cons] using h1
      · right; left
        simpa [specLexStrict, List.all_cons] using h1
      · right; right
        simpa [specLexStrict, List.all_cons] using h1
    · have hne : ¬(some x = some v) := by simpa using hxv
      rcases evalOp_specOp_exclusive d x v hxv with ⟨h1, h2⟩ | ⟨h1, h2⟩
      · left
        refine ⟨?_, ?_, ?_⟩ <;> simp [specLexStrict, hne, h1, h2, List.all_cons, hxv]
      · right; left
        refine ⟨?_, ?_, ?_⟩ <;> simp [specLexStrict, hne, h1, h2, List.all_cons, hxv]

/-! ## Order-theoretic properties of the `ORDER BY` comparator -/

theorem cmpVal_some_lt_iff (a b : Int) : cmpVal (some a) (some b) = .lt ↔ a < b := by
  rw [cmpVal]
  split_ifs with h1 h2 <;> simp_all <;> omega

theorem cmpVal_some_gt_iff (a b : Int) : cmpVal (some a) (some b) = .gt ↔ b < a := by
  rw [cmpVal]
  split_ifs with h1 h2 <;> simp_all <;> omega

theorem cmpVal_refl (x : Option Int) : cmpVal x x = .eq := by
  cases x with
  | none => rfl
  | some a => rw [cmpVal]; simp

theorem cmpVal_swap (x y : Option Int) : (cmpVal x y).swap = cmpVal y x := by
  cases x <;> cases y <;> try rfl
  case some.some a b =>
    rcases lt_trichotomy a b with h | h | h
    · simp [cmpVal, h, h.asymm, Ordering.swap]
    · subst h; simp [cmpVal, Ordering.swap]
    · simp [cmpVal, h, h.asymm, Ordering.swap]

theorem cmpVal_eq_iff (x y : Option Int) : cmpVal x y = .eq ↔ x = y := by
  cases x <;> cases y <;> simp [cmpVal]
  omega

theorem cmpVal_lt_trans {x y z : Option Int} (h1 : cmpVal x y = .lt)
    (h2 : cmpVal y z = .lt) : cmpVal x z = .lt := by
  cases x <;> cases y <;> cases z <;> simp_all [cmpVal]
  omega

/-- The adjusted (direction-aware) head comparison used at each position
of `cmpFields`. -/
def hdCmp (a b : Rec) (fd : Fld × Bool) : Ordering :=
  if fd.2 then (cmpVal (getattr a fd.1) (getattr b fd.1)).swap
  else cmpVal (getattr a fd.1) (getattr b fd.1)

theorem cmpFields_cons (a b : Rec) (fd : Fld × Bool) (rest : List (Fld × Bool)) :
    cmpFields a b (fd :: rest) =
      (match hdCmp a b fd with
       | .eq => cmpFields a b rest
       | .lt => .lt
       | .gt => .gt) := rfl

theorem hdCmp_refl (a : Rec) (fd : Fld × Bool) : hdCmp a a fd = .eq := by
  rw [hdCmp]
  split_ifs <;> simp [cmpVal_refl, Ordering.swap]

theorem hdCmp_swap (a b : Rec) (fd : Fld × Bool) :
    (hdCmp a b fd).swap = hdCmp b a fd := by
  rw [hdCmp, hdCmp]
  split_ifs
  · rw [cmpVal_swap]
  · exact cmpVal_swap _ _

theorem hdCmp_eq_iff (a b : Rec) (fd : Fld × Bool) :
    hdCmp a b fd = .eq ↔ getattr a fd.1 = getattr b fd.1 := by
  rw [hdCmp]
  split_ifs
  · rw [← cmpVal_eq_iff (getattr a fd.1)]
    cases cmpVal (getattr a fd.1) (getattr b fd.1) <;> simp [Ordering.swap]
  · exact cmpVal_eq_iff _ _

theorem hdCmp_lt_trans {a b c : Rec} {fd : Fld × Bool}
    (h1 : hdCmp a b fd = .lt) (h2 : hdCmp b c fd = .lt) :
    hdCmp a c fd = .lt := by
  rw [hdCmp] at *
  split_ifs at * with hd
  · have g1 : cmpVal (getattr b fd.1) (getattr a fd.1) = .lt := by
      rw [← cmpVal_swap]
      cases hcv : cmpVal (getattr a fd.1) (getattr b fd.1) <;>
        rw [hcv] at h1 <;> first | rfl | cases h1
    have g2 : cmpVal (getattr c fd.1) (getattr b fd.1) = .lt := by
      rw [← cmpVal_swap]
      cases hcv : cmpVal (getattr b fd.1) (getattr c fd.1) <;>
        rw [hcv] at h2 <;> first | rfl | cases h2
    have g3 := cmpVal_lt_trans g2 g1
    rw [← cmpVal_swap, g3]
    rfl
  · exact cmpVal_lt_trans h1 h2

theorem cmpFields_refl (a : Rec) (fds : List (Fld × Bool)) :
    cmpFields a a fds = .eq := by
  induction fds with
  | nil => rfl
  | cons fd rest ih => rw [cmpFields_cons, hdCmp_refl]; exact ih

theorem cmpFields_swap (a b : Rec) (fds : List (Fld × Bool)) :
    (cmpFields a b fds).swap = cmpFields b a fds := by
  induction fds with
  | nil => rfl
  | cons fd rest ih =>
    rw [cmpFields_cons, cmpFields_cons, ← hdCmp_swap a b fd]
    cases hdCmp a b fd
    case lt => rfl
    case eq => exact ih
    case gt => rfl

/-- `cmpFields` ties exactly on records agreeing on every listed field. -/
theorem cmpFields_eq_iff (a b : Rec) (fds : List (Fld × Bool)) :
    cmpFields a b fds = .eq ↔
      ∀ fd ∈ fds, getattr a fd.1 = getattr b fd.1 := by
  induction fds with
  | nil => simp [cmpFields]
  | cons fd rest ih =>
    rw [cmpFields_cons]
    cases h : hdCmp a b fd with
    | eq =>
      rw [ih]
      constructor
      · intro hr fd' hfd'
        rcases List.mem_cons.mp hfd' with h' | h'
        · rw [h']; exact (hdCmp_eq_iff a b fd).mp h
        · exact hr fd' h'
      · intro hr fd' hfd'
        exact hr fd' (List.mem_cons_of_mem _ hfd')
    | lt =>
      constructor
      · intro h'
        cases h'
      · intro hr
        have he := (hdCmp_eq_iff a b fd).mpr (hr fd (List.mem_cons_self _ _))
        rw [he] at h
        cases h
    | gt =>
      constructor
      · intro h'
        cases h'
      · intro hr
        have he := (hdCmp_eq_iff a b fd).mpr (hr fd (List.mem_cons_self _ _))
        rw [he] at h
        cases h

theorem cmpFields_le_trans {a b c : Rec} {fds : List (Fld × Bool)}
    (h1 : cmpFields a b fds ≠ .gt) (h2 : cmpFields b c fds ≠ .gt) :
    cmpFields a c fds ≠ .gt := by
  induction fds with
  | nil => simp [cmpFields]
  | cons fd rest ih =>
    rw [cmpFields_cons] at *
    cases hu : hdCmp a b fd with
    | gt => rw [hu] at h1; exact absurd rfl h1
    | eq =>
      have hab : getattr a fd.1 = getattr b fd.1 := (hdCmp_eq_iff a b fd).mp hu
      have hw : hdCmp a c fd = hdCmp b c fd := by rw [hdCmp, hdCmp, hab]
      rw [hu] at h1
      rw [hw]
      cases hv : hdCmp b c fd with
      | lt => simp
      | gt => rw [hv] at h2; exact absurd rfl h2
      | eq => rw [hv] at h2; exact ih h1 h2
    | lt =>
      cases hv : hdCmp b c fd with
      | lt => rw [hdCmp_lt_trans hu hv]; simp
      | gt => rw [hv] at h2; exact absurd rfl h2
      | eq =>
        have hbc : getattr b fd.1 = getattr c fd.1 := (hdCmp_eq_iff b c fd).mp hv
        have hw : hdCmp a c fd = hdCmp a b fd := by rw [hdCmp, hdCmp, hbc]
        rw [hw, hu]
        simp

theorem isLE_iff_ne_gt (o : Ordering) : o.isLE = true ↔ o ≠ .gt := by
  cases o <;> simp [Ordering.isLE]

theorem recLE_trans (ordering : List String) :
    ∀ a b c : Rec, recLE ordering a b → recLE ordering b c → recLE ordering a c := by
  intro a b c h1 h2
  rw [recLE, isLE_iff_ne_gt] at *
  exact cmpFields_le_trans h1 h2

theorem recLE_total (ordering : List String) :
    ∀ a b : Rec, recLE ordering a b ∨ recLE ordering b a := by
  intro a b
  rw [recLE, recLE, isLE_iff_ne_gt, isLE_iff_ne_gt]
  cases h : cmpRecs ordering a b with
  | lt => left; simp [h]
  | eq => left; simp [h]
  | gt =>
    right
    have := cmpFields_swap a b (ordering.map stripDir)
    rw [cmpRecs] at h
    rw [cmpRecs, ← this, h]
    simp [Ordering.swap]

/-- The query set `.all()` is sorted by the `Meta.ordering` comparator. -/
theorem sorted_allRecords (m : Model) :
    (allRecords m).Pairwise (recLE m.ordering) := by
  haveI : IsTotal Rec (recLE m.ordering) := ⟨recLE_total m.ordering⟩
  haveI : IsTrans Rec (recLE m.ordering) :=
    ⟨fun a b c => recLE_trans m.ordering a b c⟩
  exact List.sorted_insertionSort (recLE m.ordering) m.db

/-- The query set `.all()` is a permutation of the stored records. -/
theorem perm_allRecords (m : Model) : List.Perm (allRecords m) m.db :=
  List.perm_insertionSort (recLE m.ordering) m.db

/-! ## Bridging the predicate and the comparator -/

theorem swap_eq_gt_iff (o : Ordering) : o.swap = .gt ↔ o = .lt := by
  cases o <;> simp [Ordering.swap]

theorem swap_eq_lt_iff (o : Ordering) : o.swap = .lt ↔ o = .gt := by
  cases o <;> simp [Ordering.swap]

theorem cmpFields_cons_ne_eq {a b : Rec} {fd : Fld × Bool}
    {rest : List (Fld × Bool)} (h : hdCmp a b fd ≠ .eq) :
    cmpFields a b (fd :: rest) = hdCmp a b fd := by
  rw [cmpFields_cons]
  cases hh : hdCmp a b fd
  · rfl
  · exact absurd hh h
  · rfl

/-- Stepping the strict lexicographic test through a block of fields whose
values are present on both records: it succeeds exactly when the block
already decides the comparison in the search direction, or the block ties
and the remaining positions decide it. -/
theorem specLex_append (self c : Rec) (nxt : Bool) (fds : List (Fld × Bool))
    (restPairs : List (Bool × Int × Option Int))
    (hs : ∀ fd ∈ fds, (getattr self fd.1).isSome = true)
    (hc : ∀ fd ∈ fds, (getattr c fd.1).isSome = true) :
    specLexStrict nxt ((fds.filterMap fun fd => (getattr self fd.1).map
        fun v => (fd.2, v, getattr c fd.1)) ++ restPairs) = true ↔
      (cmpFields c self fds = (if nxt then Ordering.gt else Ordering.lt) ∨
        (cmpFields c self fds = .eq ∧ specLexStrict nxt restPairs = true)) := by
  induction fds with
  | nil =>
    cases nxt <;> simp [cmpFields]
  | cons fd fds ih =>
    obtain ⟨v, hv⟩ := Option.isSome_iff_exists.mp
      (hs fd (List.mem_cons_self _ _))
    obtain ⟨x, hx⟩ := Option.isSome_iff_exists.mp
      (hc fd (List.mem_cons_self _ _))
    have hs' : ∀ fd ∈ fds, (getattr self fd.1).isSome = true :=
      fun fd hfd => hs fd (List.mem_cons_of_mem _ hfd)
    have hc' : ∀ fd ∈ fds, (getattr c fd.1).isSome = true :=
      fun fd hfd => hc fd (List.mem_cons_of_mem _ hfd)
    rw [List.filterMap_cons, hv, Option.map_some', List.cons_append]
    by_cases hxv : x = v
    · subst hxv
      have hdeq : hdCmp c self fd = .eq :=
        (hdCmp_eq_iff c self fd).mpr (hx.trans hv.symm)
      rw [cmpFields_cons, hdeq]
      have hif : specLexStrict nxt ((fd.2, x, getattr c fd.1) ::
          ((fds.filterMap fun fd => (getattr self fd.1).map
            fun v => (fd.2, v, getattr c fd.1)) ++ restPairs)) =
          specLexStrict nxt ((fds.filterMap fun fd => (getattr self fd.1).map
            fun v => (fd.2, v, getattr c fd.1)) ++ restPairs) := by
        rw [specLexStrict]
        simp [hx]
      rw [hif]
      exact ih hs' hc'
    · have hdne : hdCmp c self fd ≠ .eq := by
        rw [Ne, hdCmp_eq_iff, hx, hv]
        simp [hxv]
      rw [cmpFields_cons_ne_eq hdne]
      have hlex : specLexStrict nxt ((fd.2, v, getattr c fd.1) ::
          ((fds.filterMap fun fd => (getattr self fd.1).map
            fun v => (fd.2, v, getattr c fd.1)) ++ restPairs)) =
          evalOp (specOp nxt fd.2) x v := by
        rw [specLexStrict, hx]
        simp [hxv]
      rw [hlex]
      simp only [hdne, false_and, or_false]
      rw [hdCmp, hx, hv]
      cases hfd2 : fd.2 <;> cases nxt <;>
        simp [specOp, evalOp, cmpVal_some_gt_iff, cmpVal_some_lt_iff,
          swap_eq_gt_iff, swap_eq_lt_iff]

theorem parsedFields_eq (ordering : List String) :
    parsedFields ordering = ordering.map stripDir ++ [("pk", false)] := by
  rw [parsedFields, List.map_append]
  rfl

theorem pk_mem_parsedFields (ordering : List String) :
    (("pk" : Fld), false) ∈ parsedFields ordering := by
  rw [parsedFields_eq]
  exact List.mem_append_right _ (List.mem_singleton.mpr rfl)

theorem effectiveFields_ne_nil (ordering : List String) (self : Rec)
    (nxt : Bool) (hs : (getattr self "pk").isSome = true) :
    effectiveFields ordering self nxt ≠ [] := by
  intro h
  rw [effectiveFields_eq_nil_iff] at h
  have hn := h ("pk", false) (pk_mem_parsedFields ordering)
  rw [hn] at hs
  cases hs

/-- The predicate built for a lookup from `self`, evaluated on a candidate
whose parsed-field values are all present (as are the reference's), holds
exactly when the candidate sorts strictly after (forward) or strictly
before (backward) the reference under `Meta.ordering` — with the `pk`
comparison breaking ties. -/
theorem pred_iff_cmp (ordering : List String) (self c : Rec) (nxt : Bool)
    (hs : ∀ fd ∈ parsedFields ordering, (getattr self fd.1).isSome = true)
    (hc : ∀ fd ∈ parsedFields ordering, (getattr c fd.1).isSome = true) :
    evalQ c (buildQ (effectiveFields ordering self nxt)) = true ↔
      (cmpRecs ordering c self = (if nxt then Ordering.gt else Ordering.lt) ∨
        (cmpRecs ordering c self = .eq ∧
          cmpVal (getattr c "pk") (getattr self "pk") =
            (if nxt then Ordering.gt else Ordering.lt))) := by
  have hpks := hs _ (pk_mem_parsedFields ordering)
  have hpkc := hc _ (pk_mem_parsedFields ordering)
  obtain ⟨vpk, hvpk⟩ := Option.isSome_iff_exists.mp hpks
  obtain ⟨xpk, hxpk⟩ := Option.isSome_iff_exists.mp hpkc
  have hne := effectiveFields_ne_nil ordering self nxt hpks
  rw [evalQ_buildQ_eq_specLex ordering self c nxt hne, specPairs,
    parsedFields_eq, List.filterMap_append]
  have hrest : ([(("pk" : Fld), false)].filterMap fun fd =>
      (getattr self fd.1).map fun v => (fd.2, v, getattr c fd.1)) =
      [(false, vpk, getattr c "pk")] := by
    rw [List.filterMap_cons]
    simp [hvpk]
  rw [hrest]
  have hs' : ∀ fd ∈ ordering.map stripDir, (getattr self fd.1).isSome = true :=
    fun fd hfd => hs fd (by rw [parsedFields_eq]; exact List.mem_append_left _ hfd)
  have hc' : ∀ fd ∈ ordering.map stripDir, (getattr c fd.1).isSome = true :=
    fun fd hfd => hc fd (by rw [parsedFields_eq]; exact List.mem_append_left _ hfd)
  rw [specLex_append self c nxt (ordering.map stripDir) _ hs' hc']
  have hpk : specLexStrict nxt [(false, vpk, getattr c "pk")] = true ↔
      cmpVal (getattr c "pk") (getattr self "pk") =
        (if nxt then Ordering.gt else Ordering.lt) := by
    rw [hxpk, hvpk]
    by_cases h : xpk = vpk
    · subst h
      cases nxt <;> simp [specLexStrict, cmpVal_refl]
    · rw [specLexStrict]
      simp only [Option.some.injEq, h, if_false]
      cases nxt <;>
        simp [specOp, evalOp, cmpVal_some_gt_iff, cmpVal_some_lt_iff, h]
  rw [hpk, cmpRecs]

/-! ## Round-trip adjacency machinery -/

/-- Every parsed field (ordering and tiebreaker) has a present value on
the record. -/
def allPresent (ordering : List String) (x : Rec) : Prop :=
  ∀ fd ∈ parsedFields ordering, (getattr x fd.1).isSome = true

instance (ordering : List String) (x : Rec) : Decidable (allPresent ordering x) :=
  inferInstanceAs (Decidable (∀ fd ∈ parsedFields ordering,
    (getattr x fd.1).isSome = true))

theorem cmpRecs_refl (ordering : List String) (a : Rec) :
    cmpRecs ordering a a = .eq :=
  cmpFields_refl a _

theorem cmpRecs_swap (ordering : List String) (a b : Rec) :
    (cmpRecs ordering a b).swap = cmpRecs ordering b a :=
  cmpFields_swap a b _

/-- In a `Pairwise R` list the last element is above every member. -/
theorem pairwise_getLast?_max {R : α → α → Prop} :
    ∀ {l : List α} {a : α}, l.Pairwise R → l.getLast? = some a →
      ∀ b ∈ l, b = a ∨ R b a := by
  intro l
  induction l with
  | nil => intro a _ ha; cases ha
  | cons y t ih =>
    intro a h ha b hb
    cases t with
    | nil =>
      rw [List.getLast?_singleton] at ha
      rcases List.mem_singleton.mp hb with rfl
      left
      exact Option.some.inj ha
    | cons z t' =>
      rw [List.getLast?_cons_cons] at ha
      obtain ⟨h1, h2⟩ := List.pairwise_cons.mp h
      rcases List.mem_cons.mp hb with rfl | hb'
      · right
        exact h1 a (List.mem_of_getLast?_eq_some ha)
      · exact ih h2 ha b hb'

/-- In a `Pairwise R` list the head is below every member. -/
theorem pairwise_head?_min {R : α → α → Prop} {l : List α} {a : α}
    (h : l.Pairwise R) (ha : l.head? = some a) :
    ∀ b ∈ l, b = a ∨ R a b := by
  cases l with
  | nil => cases ha
  | cons y t =>
    obtain rfl : y = a := Option.some.inj ha
    obtain ⟨h1, -⟩ := List.pairwise_cons.mp h
    intro b hb
    rcases List.mem_cons.mp hb with rfl | hb'
    · exact Or.inl rfl
    · exact Or.inr (h1 b hb')

theorem head?_take_one (l : List α) : (l.take 1).head? = l.head? := by
  cases l <;> rfl

/-- Unfolded form of `_get_next_or_previous`. -/
theorem get_next_or_previous_def (m : Model) (self : Rec) (nxt : Bool)
    (num : Nat) (extra : Rec → Bool) :
    get_next_or_previous m self nxt num extra =
      (if nxt then (((allRecords m).filter m.next_previous_filter).filter
          extra).filter
          (fun c => evalQ c (buildQ (effectiveFields m.ordering self nxt)))
        else ((((allRecords m).filter m.next_previous_filter).filter
          extra).filter
          (fun c => evalQ c (buildQ (effectiveFields m.ordering self
            nxt)))).reverse).take num := rfl

/-- On an instance with no cache attribute set, a `num == 1` call returns
the head of the freshly computed query set. -/
theorem single_head (m : Model) (self : Rec) (nxt : Bool)
    (extra : Rec → Bool) :
    (get_next_or_previous_single m self Cache.empty nxt 1 extra).1 =
      .single (get_next_or_previous m self nxt 1 extra).head? := by
  rw [get_next_or_previous_single, cached_get_next_or_previous]
  have hce : getCacheEntry Cache.empty nxt = none := by cases nxt <;> rfl
  rw [hce]
  rfl

/-- Strengthening of `pred_iff_cmp` when ties on the ordering force record
equality: the predicate holds exactly on records strictly after/before the
reference in the `ORDER BY` comparator. -/
theorem pred_iff_cmp_strict (ordering : List String) (self c : Rec)
    (nxt : Bool) (hs : allPresent ordering self) (hc : allPresent ordering c)
    (heq : cmpRecs ordering c self = .eq → c = self) :
    evalQ c (buildQ (effectiveFields ordering self nxt)) = true ↔
      cmpRecs ordering c self = (if nxt then Ordering.gt else Ordering.lt) := by
  rw [pred_iff_cmp ordering self c nxt hs hc]
  constructor
  · rintro (h | ⟨h1, h2⟩)
    · exact h
    · exfalso
      rw [heq h1, cmpVal_refl] at h2
      cases nxt <;> simp at h2
  · intro h
    exact Or.inl h

/-- Specialization of the pipeline to each direction (the literal
boolean reduces). -/
theorem get_next_def_true (m : Model) (self : Rec) (num : Nat)
    (extra : Rec → Bool) :
    get_next_or_previous m self true num extra =
      ((((allRecords m).filter m.next_previous_filter).filter extra).filter
        (fun c => evalQ c (buildQ (effectiveFields m.ordering self
          true)))).take num := rfl

theorem get_next_def_false (m : Model) (self : Rec) (num : Nat)
    (extra : Rec → Bool) :
    get_next_or_previous m self false num extra =
      (((((allRecords m).filter m.next_previous_filter).filter extra).filter
        (fun c => evalQ c (buildQ (effectiveFields m.ordering self
          false)))).reverse).take num := rfl

theorem mem_triple_filter {l : List α} {p1 p2 p3 : α → Bool} {y : α} :
    y ∈ ((l.filter p1).filter p2).filter p3 ↔
      y ∈ l ∧ p1 y = true ∧ p2 y = true ∧ p3 y = true := by
  simp only [List.mem_filter]
  tauto

/-- Round-trip adjacency, amended: assuming all ordering-and-tiebreaker
values present, unique primary keys, AND no two stored records tying on
every declared ordering field (the amendment - without it the database
sort order of tied rows is unspecified and the property fails, see the
counterexample), if `r.previous()` returns `p` and `p.next()` returns
`x`, then `x = r`. -/
theorem previous_then_next_roundtrip (m : Model) (r p x : Rec)
    (extra : Rec → Bool)
    (hr : r ∈ m.db)
    (hscope : m.next_previous_filter r = true)
    (hextra : extra r = true)
    (hpres : ∀ y ∈ m.db, allPresent m.ordering y)
    (hpk : m.db.Pairwise fun a b => getattr a "pk" ≠ getattr b "pk")
    (hnoties : ∀ a ∈ m.db, ∀ b ∈ m.db, cmpRecs m.ordering a b = .eq → a = b)
    (hp : (previousOf m r Cache.empty 1 extra).1 = .single (some p))
    (hx : (nextOf m p Cache.empty 1 extra).1 = .single (some x)) :
    x = r := by
  have hsorted := sorted_allRecords m
  have hperm := perm_allRecords m
  rw [previousOf, single_head] at hp
  rw [nextOf, single_head] at hx
  simp only [NPResult.single.injEq] at hp hx
  rw [get_next_def_false, head?_take_one, List.head?_reverse] at hp
  rw [get_next_def_true, head?_take_one] at hx
  have hsubP : List.Sublist ((((allRecords m).filter
      m.next_previous_filter).filter extra).filter
      (fun c => evalQ c (buildQ (effectiveFields m.ordering r false))))
      (allRecords m) :=
    List.Sublist.trans (List.filter_sublist _)
      (List.Sublist.trans (List.filter_sublist _) (List.filter_sublist _))
  have hsubN : List.Sublist ((((allRecords m).filter
      m.next_previous_filter).filter extra).filter
      (fun c => evalQ c (buildQ (effectiveFields m.ordering p true))))
      (allRecords m) :=
    List.Sublist.trans (List.filter_sublist _)
      (List.Sublist.trans (List.filter_sublist _) (List.filter_sublist _))
  have hsortP := List.Pairwise.sublist hsubP hsorted
  have hsortN := List.Pairwise.sublist hsubN hsorted
  have hpq := List.mem_of_getLast?_eq_some hp
  obtain ⟨hpAll, hpScope, hpExtra, hpPred⟩ := mem_triple_filter.mp hpq
  have hpdb : p ∈ m.db := hperm.mem_iff.mp hpAll
  have hcmp_pr : cmpRecs m.ordering p r = .lt := by
    have hiff := pred_iff_cmp_strict m.ordering r p false (hpres r hr)
      (hpres p hpdb) (fun he => hnoties p hpdb r hr he)
    simpa using hiff.mp hpPred
  have hmax := pairwise_getLast?_max hsortP hp
  have hxq := List.mem_of_mem_head? (Option.mem_def.mpr hx)
  obtain ⟨hxAll, hxScope, hxExtra, hxPred⟩ := mem_triple_filter.mp hxq
  have hxdb : x ∈ m.db := hperm.mem_iff.mp hxAll
  have hcmp_xp : cmpRecs m.ordering x p = .gt := by
    have hiff := pred_iff_cmp_strict m.ordering p x true (hpres p hpdb)
      (hpres x hxdb) (fun he => hnoties x hxdb p hpdb he)
    simpa using hiff.mp hxPred
  have hmin := pairwise_head?_min hsortN hx
  have hcmp_rp : cmpRecs m.ordering r p = .gt := by
    rw [← cmpRecs_swap m.ordering p r, hcmp_pr]
    rfl
  have hrPred : evalQ r (buildQ (effectiveFields m.ordering p true)) = true := by
    have hiff := pred_iff_cmp_strict m.ordering p r true (hpres p hpdb)
      (hpres r hr) (fun he => hnoties r hr p hpdb he)
    apply hiff.mpr
    simpa using hcmp_rp
  have hrq : r ∈ (((allRecords m).filter m.next_previous_filter).filter
      extra).filter
      (fun c => evalQ c (buildQ (effectiveFields m.ordering p true))) :=
    mem_triple_filter.mpr ⟨hperm.mem_iff.mpr hr, hscope, hextra, hrPred⟩
  rcases hmin r hrq with rfl | hler
  · rfl
  · cases hxr : cmpRecs m.ordering x r with
    | eq => exact hnoties x hxdb r hr hxr
    | gt =>
      exfalso
      rw [recLE, hxr] at hler
      cases hler
    | lt =>
      exfalso
      have hxPredP : evalQ x (buildQ (effectiveFields m.ordering r false)) =
          true := by
        have hiff := pred_iff_cmp_strict m.ordering r x false (hpres r hr)
          (hpres x hxdb) (fun he => hnoties x hxdb r hr he)
        apply hiff.mpr
        simpa using hxr
      have hxqP : x ∈ (((allRecords m).filter m.next_previous_filter).filter
          extra).filter
          (fun c => evalQ c (buildQ (effectiveFields m.ordering r false))) :=
        mem_triple_filter.mpr ⟨hxAll, hxScope, hxExtra, hxPredP⟩
      rcases hmax x hxqP with rfl | hlexp
      · rw [cmpRecs_refl] at hcmp_xp
        cases hcmp_xp
      · rw [recLE, hcmp_xp] at hlexp
        cases hlexp

/-- Bounded, strictly ordered output, amended: with all values present,
unique primary keys and no ties on the declared ordering fields (the
amendment - with ties the output order among tied rows is unspecified and
strictness fails, see the counterexample), `next(count=k)` returns at most
`k` records, each strictly after the reference, in strictly ascending
order; `previous(count=k)` symmetrically, nearest-first (strictly
descending). -/
theorem next_previous_bounded_strictly_ordered (m : Model) (r : Rec)
    (k : Nat) (extra : Rec → Bool)
    (hr : r ∈ m.db)
    (hpres : ∀ y ∈ m.db, allPresent m.ordering y)
    (hpk : m.db.Pairwise fun a b => getattr a "pk" ≠ getattr b "pk")
    (hnoties : ∀ a ∈ m.db, ∀ b ∈ m.db, cmpRecs m.ordering a b = .eq → a = b) :
    (get_next_or_previous m r true k extra).length ≤ k ∧
    (∀ c ∈ get_next_or_previous m r true k extra,
        cmpRecs m.ordering c r = .gt) ∧
    (get_next_or_previous m r true k extra).Pairwise
      (fun a b => cmpRecs m.ordering a b = .lt) ∧
    (get_next_or_previous m r false k extra).length ≤ k ∧
    (∀ c ∈ get_next_or_previous m r false k extra,
        cmpRecs m.ordering c r = .lt) ∧
    (get_next_or_previous m r false k extra).Pairwise
      (fun a b => cmpRecs m.ordering a b = .gt) := by
  have hsorted := sorted_allRecords m
  have hperm := perm_allRecords m
  have hpkS : (allRecords m).Pairwise
      (fun a b => getattr a "pk" ≠ getattr b "pk") :=
    (hperm.pairwise_iff fun h e => h e.symm).mpr hpk
  have hbase := hsorted.and hpkS
  have hdbmem : ∀ {y : Rec}, y ∈ allRecords m → y ∈ m.db :=
    fun hy => hperm.mem_iff.mp hy
  have hstep : ∀ a b : Rec, a ∈ allRecords m → b ∈ allRecords m →
      recLE m.ordering a b ∧ getattr a "pk" ≠ getattr b "pk" →
      cmpRecs m.ordering a b = .lt := by
    intro a b ha hb ⟨hle, hne⟩
    cases hab : cmpRecs m.ordering a b with
    | lt => rfl
    | eq =>
      exfalso
      exact hne (congrArg (fun y => getattr y "pk")
        (hnoties a (hdbmem ha) b (hdbmem hb) hab))
    | gt =>
      exfalso
      rw [recLE, hab] at hle
      cases hle
  rw [get_next_def_true, get_next_def_false]
  have hsubN : List.Sublist ((((allRecords m).filter
      m.next_previous_filter).filter extra).filter
      (fun c => evalQ c (buildQ (effectiveFields m.ordering r true))))
      (allRecords m) :=
    List.Sublist.trans (List.filter_sublist _)
      (List.Sublist.trans (List.filter_sublist _) (List.filter_sublist _))
  have hsubP : List.Sublist ((((allRecords m).filter
      m.next_previous_filter).filter extra).filter
      (fun c => evalQ c (buildQ (effectiveFields m.ordering r false))))
      (allRecords m) :=
    List.Sublist.trans (List.filter_sublist _)
      (List.Sublist.trans (List.filter_sublist _) (List.filter_sublist _))
  refine ⟨List.length_take_le _ _, ?_, ?_, List.length_take_le _ _, ?_, ?_⟩
  · intro c hc
    obtain ⟨hcAll, -, -, hcPred⟩ :=
      mem_triple_filter.mp (List.mem_of_mem_take hc)
    have hcdb := hdbmem hcAll
    have hiff := pred_iff_cmp_strict m.ordering r c true (hpres r hr)
      (hpres c hcdb) (fun he => hnoties c hcdb r hr he)
    simpa using hiff.mp hcPred
  · have h1 := List.Pairwise.sublist
      (List.Sublist.trans (List.take_sublist k _) hsubN) hbase
    refine h1.imp_of_mem ?_
    intro a b ha hb hab
    exact hstep a b
      (List.Sublist.subset (List.Sublist.trans (List.take_sublist k _) hsubN) ha)
      (List.Sublist.subset (List.Sublist.trans (List.take_sublist k _) hsubN) hb)
      hab
  · intro c hc
    obtain ⟨hcAll, -, -, hcPred⟩ := mem_triple_filter.mp
      (List.mem_reverse.mp (List.mem_of_mem_take hc))
    have hcdb := hdbmem hcAll
    have hiff := pred_iff_cmp_strict m.ordering r c false (hpres r hr)
      (hpres c hcdb) (fun he => hnoties c hcdb r hr he)
    simpa using hiff.mp hcPred
  · have h0 := List.Pairwise.sublist hsubP hbase
    have h1 : ((((allRecords m).filter m.next_previous_filter).filter
        extra).filter (fun c => evalQ c (buildQ (effectiveFields m.ordering r
          false)))).reverse.Pairwise (fun a b =>
          recLE m.ordering b a ∧ getattr b "pk" ≠ getattr a "pk") :=
      List.pairwise_reverse.mpr h0
    have h2 := List.Pairwise.sublist (List.take_sublist k _) h1
    refine h2.imp_of_mem ?_
    intro a b ha hb hab
    have haS : a ∈ allRecords m :=
      List.Sublist.subset hsubP (List.mem_reverse.mp
        (List.Sublist.subset (List.take_sublist k _) ha))
    have hbS : b ∈ allRecords m :=
      List.Sublist.subset hsubP (List.mem_reverse.mp
        (List.Sublist.subset (List.take_sublist k _) hb))
    have := hstep b a hbS haS hab
    rw [← cmpRecs_swap m.ordering b a, this]
    rfl

/-! ## Cache behaviour -/

theorem getCacheEntry_set (st : Cache) (nxt : Bool) (e : Nat × List Rec) :
    getCacheEntry (setCacheEntry st nxt e) nxt = some e := by
  cases nxt <;> rfl

/-- Any result of the cached helper has at most `num` elements. -/
theorem cached_length_le (m : Model) (self : Rec) (st : Cache) (nxt : Bool)
    (num : Nat) (extra : Rec → Bool) :
    (cached_get_next_or_previous m self st nxt num extra).1.length ≤ num := by
  rw [cached_get_next_or_previous]
  split
  · split
    · exact List.length_take_le _ _
    · rw [get_next_or_previous_def]
      exact List.length_take_le _ _
  · rw [get_next_or_previous_def]
    exact List.length_take_le _ _

/-- The per-direction cache policy: a request is served from the stored
entry if and only if an entry exists with stored count at least the
requested one, in which case the stored list's prefix is returned and the
instance state is untouched; otherwise the query is recomputed and the
entry overwritten with the fresh pair, with no reuse of the old list.
Consequently a second, smaller (or equal) request in the same direction is
always a prefix of the first call's result, with no further state
change. -/
theorem cached_policy (m : Model) (self : Rec) (st : Cache) (nxt : Bool)
    (num : Nat) (extra : Rec → Bool) :
    (∀ e, getCacheEntry st nxt = some e → num ≤ e.1 →
      cached_get_next_or_previous m self st nxt num extra =
        (e.2.take num, st)) ∧
    (∀ e, getCacheEntry st nxt = some e → ¬num ≤ e.1 →
      cached_get_next_or_previous m self st nxt num extra =
        (get_next_or_previous m self nxt num extra,
          setCacheEntry st nxt (num, get_next_or_previous m self nxt num
            extra))) ∧
    (getCacheEntry st nxt = none →
      cached_get_next_or_previous m self st nxt num extra =
        (get_next_or_previous m self nxt num extra,
          setCacheEntry st nxt (num, get_next_or_previous m self nxt num
            extra))) ∧
    (∀ k, k ≤ num →
      cached_get_next_or_previous m self
          (cached_get_next_or_previous m self st nxt num extra).2 nxt k extra =
        ((cached_get_next_or_previous m self st nxt num extra).1.take k,
          (cached_get_next_or_previous m self st nxt num extra).2)) := by
  refine ⟨?_, ?_, ?_, ?_⟩
  · intro e he h
    simp only [cached_get_next_or_previous, he, if_pos h]
  · intro e he h
    simp only [cached_get_next_or_previous, he, if_neg h]
  · intro he
    simp only [cached_get_next_or_previous, he]
  · intro k hk
    cases he : getCacheEntry st nxt with
    | none =>
      simp only [cached_get_next_or_previous, he, getCacheEntry_set,
        if_pos hk]
    | some e =>
      by_cases h : num ≤ e.1
      · simp only [cached_get_next_or_previous, he, if_pos h,
          if_pos (hk.trans h), List.take_take, Nat.min_eq_left hk]
      · simp only [cached_get_next_or_previous, he, if_neg h,
          getCacheEntry_set, if_pos hk]

/-- The cache-hit test compares only the requested count and the
direction, never the extra filter arguments: after a first call with
filters `extra1` fills the cache, a second call with any other filters
`extra2` and a count below the stored one is served the first call's
results. -/
theorem cache_ignores_extra_filters (m : Model) (self : Rec) (st : Cache)
    (nxt : Bool) (n k : Nat) (extra1 extra2 : Rec → Bool)
    (hst : getCacheEntry st nxt = none) (hk : k ≤ n) :
    (cached_get_next_or_previous m self st nxt n extra1).1 =
      get_next_or_previous m self nxt n extra1 ∧
    cached_get_next_or_previous m self
        (cached_get_next_or_previous m self st nxt n extra1).2 nxt k extra2 =
      ((get_next_or_previous m self nxt n extra1).take k,
        (cached_get_next_or_previous m self st nxt n extra1).2) := by
  have h1 := (cached_policy m self st nxt n extra1).2.2.1 hst
  constructor
  · rw [h1]
  · rw [h1]
    simp only [cached_get_next_or_previous, getCacheEntry_set, if_pos hk]

/-- `_get_next_or_previous_single`: with `num == 1` the result is the
single head record, or the absence marker `None` exactly when no
qualifying record exists — never an error; with any other `num` it is the
bounded result list itself. -/
theorem single_result_behavior (m : Model) (self : Rec) (st : Cache)
    (nxt : Bool) (num : Nat) (extra : Rec → Bool) :
    (num = 1 →
      (get_next_or_previous_single m self st nxt num extra).1 =
        .single (cached_get_next_or_previous m self st nxt num extra).1.head? ∧
      ((get_next_or_previous_single m self st nxt num extra).1 =
          .single none ↔
        (cached_get_next_or_previous m self st nxt num extra).1 = [])) ∧
    (num ≠ 1 →
      (get_next_or_previous_single m self st nxt num extra).1 =
        .many (cached_get_next_or_previous m self st nxt num extra).1 ∧
      (cached_get_next_or_previous m self st nxt num extra).1.length ≤
        num) := by
  constructor
  · intro h
    subst h
    refine ⟨rfl, ?_⟩
    show NPResult.single
      (cached_get_next_or_previous m self st nxt 1 extra).1.head? =
        .single none ↔ _
    simp only [NPResult.single.injEq]
    exact List.head?_eq_none_iff
  · intro h
    constructor
    · simp only [get_next_or_previous_single, if_neg h]
    · exact cached_length_le m self st nxt num extra

/-! ## Concrete fixtures -/

/-- The pass-everything filter (the default hook / no extra kwargs). -/
def keepAll : Rec → Bool := fun _ => true

def recA : Rec := [("f", 1), ("pk", 1)]

def recB : Rec := [("f", 1), ("pk", 2)]

def recC : Rec := [("f", 1), ("pk", 3)]

/-- Three records tying on the single ordering field `f`, stored in the
order A, C, B; primary keys are unique. -/
def mTie : Model := ⟨["f"], [recA, recC, recB], keepAll⟩

def w1 : Rec := [("f", 1), ("pk", 1)]

def w2 : Rec := [("f", 2), ("pk", 2)]

def w3 : Rec := [("f", 3), ("pk", 3)]

/-- Three records with distinct ordering values. -/
def mTot : Model := ⟨["f"], [w1, w2, w3], keepAll⟩

def aPrev : Rec := [("f", 1), ("pk", 1)]

def aSelf : Rec := [("f", 2), ("pk", 2)]

def aNext1 : Rec := [("f", 3), ("pk", 3)]

def aNext2 : Rec := [("f", 4), ("pk", 4)]

/-- A record with exactly one predecessor and two successors. -/
def mAround : Model := ⟨["f"], [aPrev, aSelf, aNext1, aNext2], keepAll⟩

/-! ## `around` structure -/

theorem ipad_reverse (l : List α) (v : α) (n : Nat) (h : l.length ≤ n) :
    (ipad l v n).reverse = List.replicate (n - l.length) v ++ l.reverse := by
  rw [ipad, List.take_append_eq_append_take, List.take_of_length_le h,
    List.take_replicate, Nat.min_eq_left (Nat.sub_le n _),
    List.reverse_append, List.reverse_replicate]

theorem getElem?_append_cons (P : List β) (b : β) (C : List β) (n : Nat)
    (h : P.length = n) : (P ++ b :: C)[n]? = some b := by
  rw [List.getElem?_append_right (Nat.le_of_eq h), h, Nat.sub_self]
  simp

/-! ## Field-skipping structure -/

theorem effectiveFields_mem_present {ordering : List String} {self : Rec}
    {nxt : Bool} {e : Fld × Op × Int}
    (he : e ∈ effectiveFields ordering self nxt) :
    ∃ v, getattr self e.1 = some v := by
  rw [effectiveFields_eq] at he
  obtain ⟨fd, hfd, hmap⟩ := List.mem_filterMap.mp he
  cases hv : getattr self fd.1 with
  | none =>
    rw [hv] at hmap
    cases hmap
  | some v =>
    rw [hv, Option.map_some'] at hmap
    refine ⟨v, ?_⟩
    rw [← Option.some.inj hmap]
    exact hv

theorem mentions_qAnd (f : Fld) (a b : QTree) :
    mentions f (qAnd a b) = (mentions f a || mentions f b) := by
  cases a <;> cases b <;> simp [qAnd, mentions]

theorem mentions_qOr (f : Fld) (a b : QTree) :
    mentions f (qOr a b) = (mentions f a || mentions f b) := by
  cases a <;> cases b <;> simp [qOr, mentions]

theorem mentions_foldl_qOr (f : Fld) (l : List QTree) (init : QTree) :
    mentions f (l.foldl qOr init) = (mentions f init || l.any (mentions f)) := by
  induction l generalizing init with
  | nil => simp
  | cons t ts ih =>
    rw [List.foldl_cons, ih, mentions_qOr, List.any_cons, Bool.or_assoc]

theorem mentions_foldl_qAnd (f : Fld) (l : List (Fld × Op × Int))
    (init : QTree) :
    mentions f (l.foldl (fun acc e => qAnd acc (.eqv e.1 e.2.2)) init) =
      (mentions f init || l.any fun e => e.1 == f) := by
  induction l generalizing init with
  | nil => simp
  | cons e es ih =>
    rw [List.foldl_cons, ih, mentions_qAnd, List.any_cons]
    simp [mentions, Bool.or_assoc]

/-- Every field a built predicate mentions comes from its field list. -/
theorem mentions_buildQ {f : Fld} {fs : List (Fld × Op × Int)}
    (h : mentions f (buildQ fs) = true) : f ∈ fs.map (fun e => e.1) := by
  rw [buildQ_eq_foldl, mentions_foldl_qOr] at h
  simp only [mentions, Bool.false_or, any_map'] at h
  obtain ⟨p, hp, hmp⟩ := List.any_eq_true.mp h
  rw [Function.comp_apply, innerTree, mentions_foldl_qAnd] at hmp
  simp only [mentions] at hmp
  rcases Bool.or_eq_true_iff.mp hmp with h1 | h1
  · refine List.mem_map.mpr ⟨p.2, List.snd_mem_of_mem_enum hp, ?_⟩
    exact (eq_of_beq h1).symm ▸ rfl
  · obtain ⟨e, he, hef⟩ := List.any_eq_true.mp h1
    refine List.mem_map.mpr ⟨e, ?_, (eq_of_beq hef).symm ▸ rfl⟩
    exact List.mem_of_mem_take (List.mem_reverse.mp he)

theorem filter_const_true (l : List α) : (l.filter fun _ => true) = l := by
  induction l with
  | nil => rfl
  | cons x t ih =>
    rw [List.filter_cons, if_pos rfl, ih]

/-! ## Claim theorems -/

/-- The predicate built by `_get_next_or_previous` is true of a candidate
exactly when the candidate's tuple of effective-field values is strictly
greater (forward) or strictly less (backward) than the reference's tuple
under lexicographic order with the direction-dependent per-field
comparisons — provided the effective field list is nonempty (the
amendment: on an all-absent reference the built object is `Q()`, which
every candidate satisfies). -/
theorem predicate_is_lexicographic (ordering : List String) (self c : Rec)
    (nxt : Bool) (hne : effectiveFields ordering self nxt ≠ []) :
    evalQ c (buildQ (effectiveFields ordering self nxt)) =
      specLexStrict nxt (specPairs ordering self c) :=
  evalQ_buildQ_eq_specLex ordering self c nxt hne

theorem predicate_is_lexicographic_witness :
    effectiveFields ["f"] w1 true ≠ [] ∧
    evalQ w2 (buildQ (effectiveFields ["f"] w1 true)) =
      specLexStrict true (specPairs ["f"] w1 w2) :=
  ⟨by decide, predicate_is_lexicographic ["f"] w1 w2 true (by decide)⟩

/-- C1 as stated fails on a reference record whose every ordering and
tiebreaker value is absent: the built predicate is `Q()` and keeps every
candidate, while no tuple is strictly greater than the (empty) reference
tuple. -/
theorem predicate_is_lexicographic_counterexample :
    evalQ recA (buildQ (effectiveFields ["f"] ([] : Rec) true)) = true ∧
    specLexStrict true (specPairs ["f"] ([] : Rec) recA) = false := by
  decide

/-- The three groups relative to a reference — strictly-after,
strictly-before, equal tuple — are mutually exclusive and (for candidates
with all effective values present) exhaustive, provided the effective
field list is nonempty (the amendment: an all-absent reference yields the
match-everything `Q()` in both directions). -/
theorem adjacency_partition (ordering : List String) (self c : Rec)
    (hne : effectiveFields ordering self true ≠ [])
    (hpres : ∀ t ∈ specPairs ordering self c, t.2.2.isSome = true) :
    ¬(evalQ c (buildQ (effectiveFields ordering self true)) = true ∧
      evalQ c (buildQ (effectiveFields ordering self false)) = true) ∧
    ((evalQ c (buildQ (effectiveFields ordering self true)) = true ∧
        evalQ c (buildQ (effectiveFields ordering self false)) = false ∧
        tupleEq ordering self c = false) ∨
      (evalQ c (buildQ (effectiveFields ordering self false)) = true ∧
        evalQ c (buildQ (effectiveFields ordering self true)) = false ∧
        tupleEq ordering self c = false) ∨
      (tupleEq ordering self c = true ∧
        evalQ c (buildQ (effectiveFields ordering self true)) = false ∧
        evalQ c (buildQ (effectiveFields ordering self false)) = false)) := by
  have hneF : effectiveFields ordering self false ≠ [] := by
    intro hh
    exact hne ((effectiveFields_eq_nil_iff ordering self true).mpr
      ((effectiveFields_eq_nil_iff ordering self false).mp hh))
  rw [evalQ_buildQ_eq_specLex ordering self c true hne,
    evalQ_buildQ_eq_specLex ordering self c false hneF, tupleEq]
  exact ⟨specLex_not_both _, specLex_trichotomy _ hpres⟩

theorem adjacency_partition_witness :
    ¬(evalQ w2 (buildQ (effectiveFields ["f"] w1 true)) = true ∧
      evalQ w2 (buildQ (effectiveFields ["f"] w1 false)) = true) ∧
    ((evalQ w2 (buildQ (effectiveFields ["f"] w1 true)) = true ∧
        evalQ w2 (buildQ (effectiveFields ["f"] w1 false)) = false ∧
        tupleEq ["f"] w1 w2 = false) ∨
      (evalQ w2 (buildQ (effectiveFields ["f"] w1 false)) = true ∧
        evalQ w2 (buildQ (effectiveFields ["f"] w1 true)) = false ∧
        tupleEq ["f"] w1 w2 = false) ∨
      (tupleEq ["f"] w1 w2 = true ∧
        evalQ w2 (buildQ (effectiveFields ["f"] w1 true)) = false ∧
        evalQ w2 (buildQ (effectiveFields ["f"] w1 false)) = false)) :=
  adjacency_partition ["f"] w1 w2 (by decide) (by decide)

/-- C2 as stated fails on an all-absent reference: a candidate then
satisfies both the forward and the backward predicate (and its tuple is
also vacuously equal), so the three groups are not mutually exclusive. -/
theorem adjacency_partition_counterexample :
    evalQ recA (buildQ (effectiveFields ["f"] ([] : Rec) true)) = true ∧
    evalQ recA (buildQ (effectiveFields ["f"] ([] : Rec) false)) = true ∧
    tupleEq ["f"] ([] : Rec) recA = true := by
  decide

/-- Every field whose reference value is absent is excluded from the
effective field list (the remaining fields keeping their declared
relative order), and the built predicate contains no comparison or
equality lookup mentioning it. -/
theorem absent_fields_excluded (ordering : List String) (self : Rec)
    (nxt : Bool) :
    ((effectiveFields ordering self nxt).map fun e => (e.1, e.2.1)) =
      (((parsedFields ordering).filter fun fd =>
        (getattr self fd.1).isSome).map fun fd => (fd.1, opFor nxt fd.2)) ∧
    ∀ fd ∈ parsedFields ordering, getattr self fd.1 = none →
      (∀ e ∈ effectiveFields ordering self nxt, e.1 ≠ fd.1) ∧
      mentions fd.1 (buildQ (effectiveFields ordering self nxt)) = false := by
  constructor
  · rw [effectiveFields_eq]
    induction parsedFields ordering with
    | nil => rfl
    | cons fd l ih =>
      rw [List.filterMap_cons, List.filter_cons]
      cases hv : getattr self fd.1 with
      | none => simpa [hv] using ih
      | some v => simpa [hv] using ih
  · intro fd hfd hnone
    constructor
    · intro e he hef
      obtain ⟨v, hv⟩ := effectiveFields_mem_present he
      rw [hef, hnone] at hv
      cases hv
    · cases hm :
        mentions fd.1 (buildQ (effectiveFields ordering self nxt)) with
      | false => rfl
      | true =>
        exfalso
        obtain ⟨e, he, hee⟩ := List.mem_map.mp (mentions_buildQ hm)
        obtain ⟨v, hv⟩ := effectiveFields_mem_present he
        rw [hee, hnone] at hv
        cases hv

theorem absent_fields_excluded_witness :
    (∀ e ∈ effectiveFields ["a", "-b"] [("b", 5), ("pk", 1)] true,
      e.1 ≠ "a") ∧
    mentions "a" (buildQ (effectiveFields ["a", "-b"]
      [("b", 5), ("pk", 1)] true)) = false := by
  have h := (absent_fields_excluded ["a", "-b"] [("b", 5), ("pk", 1)] true).2
    ("a", false) (by decide) (by decide)
  exact h

/-- When every ordering field and the tiebreaker are absent on the
reference, the effective field list is empty, the built predicate is
`Q()` which every candidate satisfies, and `_get_next_or_previous`
returns the first `num` of the scoped and filtered candidates (reversed
for a backward search). -/
theorem all_absent_returns_all (m : Model) (self : Rec) (nxt : Bool)
    (num : Nat) (extra : Rec → Bool)
    (h : ∀ fd ∈ parsedFields m.ordering, getattr self fd.1 = none) :
    effectiveFields m.ordering self nxt = [] ∧
    buildQ (effectiveFields m.ordering self nxt) = .empty ∧
    (∀ c, evalQ c (buildQ (effectiveFields m.ordering self nxt)) = true) ∧
    get_next_or_previous m self nxt num extra =
      (if nxt then ((allRecords m).filter m.next_previous_filter).filter extra
       else (((allRecords m).filter m.next_previous_filter).filter
         extra).reverse).take num := by
  have hnil : effectiveFields m.ordering self nxt = [] :=
    (effectiveFields_eq_nil_iff m.ordering self nxt).mpr h
  refine ⟨hnil, ?_, ?_, ?_⟩
  · rw [hnil]
    rfl
  · intro c
    rw [hnil]
    rfl
  · rw [get_next_or_previous_def, hnil]
    have hft : ∀ l : List Rec,
        (l.filter fun c =>
          evalQ c (buildQ ([] : List (Fld × Op × Int)))) = l := by
      intro l
      have he : (fun c : Rec =>
          evalQ c (buildQ ([] : List (Fld × Op × Int)))) = fun _ => true := rfl
      rw [he, filter_const_true]
    rw [hft]

theorem all_absent_returns_all_witness :
    effectiveFields mTot.ordering [("x", 5)] true = [] ∧
    buildQ (effectiveFields mTot.ordering [("x", 5)] true) = .empty ∧
    (∀ c, evalQ c (buildQ (effectiveFields mTot.ordering [("x", 5)] true)) =
      true) ∧
    get_next_or_previous mTot [("x", 5)] true 2 keepAll =
      (if true then ((allRecords mTot).filter
        mTot.next_previous_filter).filter keepAll
       else (((allRecords mTot).filter mTot.next_previous_filter).filter
         keepAll).reverse).take 2 :=
  all_absent_returns_all mTot [("x", 5)] true 2 keepAll (by decide)

/-- `around(num)` returns exactly `num` left slots — the up-to-`num`
nearest preceding records nearest-last, left-padded with `None` — then
the reference itself at offset exactly `num`, then the up-to-`num`
following records in ascending order; total length at most `2*num + 1`,
and the result always contains the reference (never a lone absence
marker).  In particular, on a record with one predecessor and two
successors, `around(2)` is `[None, predecessor, self, s1, s2]`. -/
theorem around_structure (m : Model) (self : Rec) (st : Cache) (num : Nat)
    (extra : Rec → Bool) :
    (around m self st num extra).1 =
      List.replicate (num - (cached_get_next_or_previous m self st false num
        extra).1.length) none ++
      ((cached_get_next_or_previous m self st false num
        extra).1.reverse.map some) ++
      some self :: ((cached_get_next_or_previous m self
        (cached_get_next_or_previous m self st false num extra).2 true num
        extra).1.map some) ∧
    (cached_get_next_or_previous m self st false num extra).1.length ≤ num ∧
    (cached_get_next_or_previous m self
      (cached_get_next_or_previous m self st false num extra).2 true num
      extra).1.length ≤ num ∧
    (around m self st num extra).1.length =
      num + 1 + (cached_get_next_or_previous m self
        (cached_get_next_or_previous m self st false num extra).2 true num
        extra).1.length ∧
    (around m self st num extra).1.length ≤ 2 * num + 1 ∧
    (around m self st num extra).1[num]? = some (some self) ∧
    some self ∈ (around m self st num extra).1 ∧
    (around mAround aSelf Cache.empty 2 keepAll).1 =
      [none, some aPrev, some aSelf, some aNext1, some aNext2] := by
  have hlenP := cached_length_le m self st false num extra
  have hlenN := cached_length_le m self
    (cached_get_next_or_previous m self st false num extra).2 true num extra
  have hmaplen : ((cached_get_next_or_previous m self st false num
      extra).1.map some).length ≤ num := by
    rw [List.length_map]
    exact hlenP
  have h1 : (around m self st num extra).1 =
      (ipad ((cached_get_next_or_previous m self st false num extra).1.map
        some) none num).reverse ++
      some self :: ((cached_get_next_or_previous m self
        (cached_get_next_or_previous m self st false num extra).2 true num
        extra).1.map some) := rfl
  have h2 : (around m self st num extra).1 =
      List.replicate (num - (cached_get_next_or_previous m self st false num
        extra).1.length) none ++
      ((cached_get_next_or_previous m self st false num
        extra).1.reverse.map some) ++
      some self :: ((cached_get_next_or_previous m self
        (cached_get_next_or_previous m self st false num extra).2 true num
        extra).1.map some) := by
    rw [h1, ipad_reverse _ _ _ hmaplen, List.reverse_map, List.length_map,
      List.append_assoc]
  have hpre : (List.replicate (num - (cached_get_next_or_previous m self st
      false num extra).1.length) (none : Option Rec) ++
      ((cached_get_next_or_previous m self st false num
        extra).1.reverse.map some)).length = num := by
    rw [List.length_append, List.length_replicate, List.length_map,
      List.length_reverse]
    omega
  have h4 : (around m self st num extra).1.length =
      num + 1 + (cached_get_next_or_previous m self
        (cached_get_next_or_previous m self st false num extra).2 true num
        extra).1.length := by
    rw [h2, List.length_append, hpre, List.length_cons, List.length_map]
    omega
  refine ⟨h2, hlenP, hlenN, h4, ?_, ?_, ?_, by decide⟩
  · rw [h4]
    omega
  · rw [h2]
    exact getElem?_append_cons _ _ _ num hpre
  · rw [h2]
    exact List.mem_append.mpr (Or.inr (List.mem_cons_self _ _))

/-- C3 as stated fails when stored records tie on every declared ordering
field: with ties stored in the order A, C, B (unique primary keys, all
values present — the original claim's hypotheses), `B.previous()` is `A`
but `A.next()` is `C`, not `B`: the database sort order among tied rows,
which the mixin never pins down with the tiebreaker, decides the result. -/
theorem roundtrip_counterexample :
    (previousOf mTie recB Cache.empty 1 keepAll).1 = .single (some recA) ∧
    (nextOf mTie recA Cache.empty 1 keepAll).1 = .single (some recC) ∧
    recC ≠ recB ∧
    recB ∈ mTie.db ∧
    (∀ y ∈ mTie.db, allPresent mTie.ordering y) ∧
    mTie.db.Pairwise (fun a b => getattr a "pk" ≠ getattr b "pk") := by
  decide

theorem roundtrip_witness :
    (previousOf mTot w2 Cache.empty 1 keepAll).1 = .single (some w1) ∧
    (nextOf mTot w1 Cache.empty 1 keepAll).1 = .single (some w2) ∧
    w2 = w2 :=
  ⟨by decide, by decide,
    previous_then_next_roundtrip mTot w2 w1 w2 keepAll (by decide) rfl rfl
      (by decide) (by decide) (by decide) (by decide) (by decide)⟩

/-- C8 as stated fails when candidates tie on the declared ordering
fields: `next(count=2)` from A returns the pair C, B, which tie on every
ordering field — the sequence is not strictly ordered by the declared
ordering, and its first element is not strictly after the reference under
that ordering either. -/
theorem bounded_ordered_counterexample :
    get_next_or_previous mTie recA true 2 keepAll = [recC, recB] ∧
    cmpRecs mTie.ordering recC recB = .eq ∧
    recC ≠ recB ∧
    ¬(get_next_or_previous mTie recA true 2 keepAll).Pairwise
      (fun a b => cmpRecs mTie.ordering a b = .lt) ∧
    cmpRecs mTie.ordering recC recA = .eq := by
  decide

theorem bounded_ordered_witness :
    (get_next_or_previous mTot w2 true 2 keepAll).length ≤ 2 ∧
    (∀ c ∈ get_next_or_previous mTot w2 true 2 keepAll,
        cmpRecs mTot.ordering c w2 = .gt) ∧
    (get_next_or_previous mTot w2 true 2 keepAll).Pairwise
      (fun a b => cmpRecs mTot.ordering a b = .lt) ∧
    (get_next_or_previous mTot w2 false 2 keepAll).length ≤ 2 ∧
    (∀ c ∈ get_next_or_previous mTot w2 false 2 keepAll,
        cmpRecs mTot.ordering c w2 = .lt) ∧
    (get_next_or_previous mTot w2 false 2 keepAll).Pairwise
      (fun a b => cmpRecs mTot.ordering a b = .gt) :=
  next_previous_bounded_strictly_ordered mTot w2 2 keepAll (by decide)
    (by decide) (by decide) (by decide)

theorem cached_policy_witness :
    cached_get_next_or_previous mTot w1
        (cached_get_next_or_previous mTot w1 Cache.empty true 2 keepAll).2
        true 1 keepAll =
      ((cached_get_next_or_previous mTot w1 Cache.empty true 2
        keepAll).1.take 1,
        (cached_get_next_or_previous mTot w1 Cache.empty true 2 keepAll).2) :=
  (cached_policy mTot w1 Cache.empty true 2 keepAll).2.2.2 1 (by decide)

theorem cache_ignores_extra_filters_witness :
    ((cached_get_next_or_previous mTot w1 Cache.empty true 2 keepAll).1 =
      get_next_or_previous mTot w1 true 2 keepAll ∧
    cached_get_next_or_previous mTot w1
        (cached_get_next_or_previous mTot w1 Cache.empty true 2 keepAll).2
        true 1 (fun c => getattr c "f" == some 3) =
      ((get_next_or_previous mTot w1 true 2 keepAll).take 1,
        (cached_get_next_or_previous mTot w1 Cache.empty true 2
          keepAll).2)) ∧
    (get_next_or_previous mTot w1 true 2 keepAll).take 1 ≠
      get_next_or_previous mTot w1 true 1 (fun c => getattr c "f" == some 3) :=
  ⟨cache_ignores_extra_filters mTot w1 Cache.empty true 2 1 keepAll
      (fun c => getattr c "f" == some 3) rfl (by decide),
    by decide⟩

theorem single_result_witness :
    (get_next_or_previous_single ⟨["f"], [], keepAll⟩ w1 Cache.empty true 1
      keepAll).1 = .single none :=
  ((single_result_behavior ⟨["f"], [], keepAll⟩ w1 Cache.empty true 1
    keepAll).1 rfl).2.mpr (by decide)
